import Mathlib

/-!
Verification of the FabledVault credential vault (Universal Vault V4).

This file gives a shallow embedding of the repository's token-processing
engine (`src/core/token-engine.ts`), the SQLite grant layer (`VaultDB`,
`src/core/db.js`), the two MCP server variants (`src/servers/mcp-server.ts`
and the database-backed `src/servers/mcp-server.js`) and the Express
categories/export endpoints (`server.mjs` of the Categories UI), and then
proves or refutes the specification claims C1-C10 about them.

Conventions of the embedding:
* JavaScript strings are Lean `String`s; scanning works on `String.data`
  (`List Char`).
* The regex `TOKEN_PATTERN` is embedded as an explicit scanner
  (`matchTokenAt` / `findTokens`) that reproduces the JS `matchAll`
  semantics: try to match at each position, emit non-overlapping matches
  left to right, resume after each match.
* Scanners that walk a string take explicit fuel initialised to the
  string length so that every definition is structurally recursive and
  evaluates by `rfl` / `decide`.
* JSON values (parsed credential payloads) are the inductive `JsVal`;
  `JSON.stringify` followed by `JSON.parse` is modelled as the identity
  on such values.
-/

namespace Vault

/-- The character class `[a-zA-Z0-9_-]` of the token pattern
`/\[VAULT:([a-zA-Z0-9_-]+):([a-zA-Z0-9_-]+)(?:\.([a-zA-Z0-9_-]+))?\]/g`
in `TokenEngine` (ASCII only: the regex has no unicode flag). -/
def isNameChar (c : Char) : Bool :=
  ('a' ≤ c && c ≤ 'z') || ('A' ≤ c && c ≤ 'Z') || ('0' ≤ c && c ≤ '9')
    || c = '_' || c = '-'

/-- A parsed vault token (interface `VaultToken` in `src/types/index.ts`).
The source field `namespace` is called `nspace` here (`namespace` is a Lean
keyword).  The source's nondeterministic metadata fields (`id`,
`createdAt`, `accessCount`) carry a fresh random id, the wall-clock time
and a constant `0`; no claim refers to them, so they are not modelled. -/
structure VaultToken where
  raw : String
  nspace : String
  credential : String
  field : Option String
deriving Repr, DecidableEq

/-- The raw text `[VAULT:ns:cred(.field)?]` of a token, as a character
list. -/
def tokenRawData (ns cred : List Char) (field : Option (List Char)) : List Char :=
  '[' :: 'V' :: 'A' :: 'U' :: 'L' :: 'T' :: ':' ::
    (ns ++ ':' :: cred ++ (match field with
      | none => [']']
      | some f => '.' :: f ++ [']']))

/-- Build the `VaultToken` for components `ns`, `cred`, `field`. -/
def mkToken (ns cred : List Char) (field : Option (List Char)) : VaultToken :=
  ⟨String.mk (tokenRawData ns cred field), String.mk ns, String.mk cred,
    field.map String.mk⟩

/-- Consume the literal header `[VAULT:`. -/
def expectHeader : List Char → Option (List Char)
  | '[' :: 'V' :: 'A' :: 'U' :: 'L' :: 'T' :: ':' :: r => some r
  | _ => none

/-- Consume a nonempty greedy run of name characters (one `+` group of
the regex).  Greediness needs no backtracking because the delimiters
`:`, `.` and `]` are not name characters. -/
def parseName (s : List Char) : Option (List Char × List Char) :=
  if s.takeWhile isNameChar = [] then none
  else some (s.takeWhile isNameChar, s.dropWhile isNameChar)

/-- Consume one expected literal character. -/
def expectChar (c : Char) : List Char → Option (List Char)
  | d :: r => if d = c then some r else none
  | [] => none

/-- Attempt to match `TOKEN_PATTERN` at the start of `s`, returning the
token and the rest of the input after the match: the literal header
`[VAULT:`, a nonempty run of name characters, `:`, a second nonempty
run, an optional `.field` part, and a closing `]`.  The regex tries the
optional field group first and falls back to the bare `]`; the two
alternatives are distinguished by the first delimiter character, so no
backtracking arises. -/
def matchTokenAt (s : List Char) : Option (VaultToken × List Char) :=
  (expectHeader s).bind fun r0 =>
  (parseName r0).bind fun p1 =>
  (expectChar ':' p1.2).bind fun r2 =>
  (parseName r2).bind fun p3 =>
  match p3.2 with
  | ']' :: r4 => some (mkToken p1.1 p3.1 none, r4)
  | '.' :: r4 =>
    (parseName r4).bind fun p5 =>
    (expectChar ']' p5.2).bind fun r6 =>
    some (mkToken p1.1 p3.1 (some p5.1), r6)
  | _ => none

theorem expectHeader_eq_some {s r : List Char} (h : expectHeader s = some r) :
    s = '[' :: 'V' :: 'A' :: 'U' :: 'L' :: 'T' :: ':' :: r := by
  unfold expectHeader at h
  split at h
  · simp_all
  · simp at h

theorem parseName_eq_some {s n r : List Char}
    (h : parseName s = some (n, r)) :
    n ≠ [] ∧ n.all isNameChar = true ∧ s = n ++ r ∧
      ∀ c ∈ r.head?, isNameChar c = false := by
  unfold parseName at h
  split at h
  · simp at h
  case _ hne =>
    simp only [Option.some.injEq, Prod.mk.injEq] at h
    obtain ⟨hn, hr⟩ := h
    subst hn; subst hr
    refine ⟨hne, List.all_takeWhile, (List.takeWhile_append_dropWhile _ _).symm, ?_⟩
    intro c hc
    cases hd : s.dropWhile isNameChar with
    | nil => simp [hd] at hc
    | cons d dr =>
      have := List.head_dropWhile_not isNameChar s (by simp [hd])
      simp only [hd] at this hc
      simp at hc
      simpa [← hc] using this

theorem expectChar_eq_some {c : Char} {s r : List Char}
    (h : expectChar c s = some r) : s = c :: r := by
  unfold expectChar at h
  split at h
  case _ d r' =>
    split at h
    · simp_all
    · simp at h
  · simp at h

theorem parseName_length {s n r : List Char}
    (h : parseName s = some (n, r)) : r.length < s.length := by
  obtain ⟨hne, -, hs, -⟩ := parseName_eq_some h
  subst hs
  have : 0 < n.length := List.length_pos.2 hne
  simp [List.length_append]; omega

/-- A successful match consumes at least one character. -/
theorem matchTokenAt_rest_length {s : List Char} {t : VaultToken}
    {r : List Char} (h : matchTokenAt s = some (t, r)) :
    r.length < s.length := by
  unfold matchTokenAt at h
  simp only [Option.bind_eq_some] at h
  obtain ⟨r0, h0, ⟨ns, r1⟩, h1, r2, h2, ⟨cred, r3⟩, h3, hrest⟩ := h
  have e0 := expectHeader_eq_some h0
  have l1 := parseName_length h1
  have e2 := expectChar_eq_some h2
  have l3 := parseName_length h3
  subst e0
  have hr : r.length ≤ r3.length := by
    split at hrest
    case _ r4 heq =>
      simp only [Option.some.injEq, Prod.mk.injEq] at hrest
      obtain ⟨-, hr4⟩ := hrest
      subst heq
      subst hr4
      simp only [List.length_cons]
      omega
    case _ r4 heq =>
      simp only [Option.bind_eq_some, Option.some.injEq, Prod.mk.injEq] at hrest
      obtain ⟨⟨fld, r5⟩, h5, r6, h6, -, hr6⟩ := hrest
      have l5 := parseName_length h5
      have e6 := expectChar_eq_some h6
      subst heq
      subst hr6
      subst e6
      simp only [List.length_cons] at l5 ⊢
      omega
    all_goals exact Option.noConfusion hrest
  subst e2
  simp only [List.length_cons] at l1 ⊢
  omega

theorem expectHeader_cons (r : List Char) :
    expectHeader ('[' :: 'V' :: 'A' :: 'U' :: 'L' :: 'T' :: ':' :: r) = some r :=
  rfl

theorem expectChar_cons (c : Char) (r : List Char) :
    expectChar c (c :: r) = some r := by
  simp [expectChar]

theorem takeWhile_append_delim {p : Char → Bool} {n r : List Char}
    (hall : n.all p = true) (hr : ∀ c ∈ r.head?, p c = false) :
    (n ++ r).takeWhile p = n ∧ (n ++ r).dropWhile p = r := by
  induction n with
  | nil =>
    simp only [List.nil_append]
    cases r with
    | nil => simp
    | cons d dr =>
      have hd : p d = false := hr d (by simp)
      simp [List.takeWhile_cons, List.dropWhile_cons, hd]
  | cons c tl ih =>
    simp only [List.all_cons, Bool.and_eq_true] at hall
    obtain ⟨hc, htl⟩ := hall
    obtain ⟨ht, hd⟩ := ih htl
    simp [List.takeWhile_cons, List.dropWhile_cons, hc, ht, hd]

/-- `parseName` consumes exactly a nonempty run of name characters when
the remainder starts with a delimiter. -/
theorem parseName_exact {n r : List Char} (hn : n ≠ [])
    (hall : n.all isNameChar = true)
    (hr : ∀ c ∈ r.head?, isNameChar c = false) :
    parseName (n ++ r) = some (n, r) := by
  obtain ⟨ht, hd⟩ := takeWhile_append_delim hall hr
  simp [parseName, ht, hd, hn]

/-- Forward computation of the scanner: at the start of a well-formed
raw token, `matchTokenAt` succeeds, consumes exactly the raw token, and
produces the corresponding `VaultToken`. -/
theorem matchTokenAt_raw (ns cred : List Char) (field : Option (List Char))
    (rest : List Char) (hns : ns ≠ []) (hnsall : ns.all isNameChar = true)
    (hcred : cred ≠ []) (hcredall : cred.all isNameChar = true)
    (hfield : ∀ f, field = some f → f ≠ [] ∧ f.all isNameChar = true) :
    matchTokenAt (tokenRawData ns cred field ++ rest) =
      some (mkToken ns cred field, rest) := by
  cases field with
  | none =>
    have e1 : tokenRawData ns cred none ++ rest =
        '[' :: 'V' :: 'A' :: 'U' :: 'L' :: 'T' :: ':' ::
          (ns ++ ':' :: (cred ++ ']' :: rest)) := by
      simp [tokenRawData]
    rw [e1]
    unfold matchTokenAt
    rw [expectHeader_cons, Option.some_bind,
      parseName_exact hns hnsall (by intro c hc; simp at hc; subst hc; decide),
      Option.some_bind, expectChar_cons, Option.some_bind,
      parseName_exact hcred hcredall
        (by intro c hc; simp at hc; subst hc; decide),
      Option.some_bind]
    rfl
  | some fld =>
    obtain ⟨hfld, hfldall⟩ := hfield fld rfl
    have e1 : tokenRawData ns cred (some fld) ++ rest =
        '[' :: 'V' :: 'A' :: 'U' :: 'L' :: 'T' :: ':' ::
          (ns ++ ':' :: (cred ++ '.' :: (fld ++ ']' :: rest))) := by
      simp [tokenRawData]
    rw [e1]
    unfold matchTokenAt
    rw [expectHeader_cons, Option.some_bind,
      parseName_exact hns hnsall (by intro c hc; simp at hc; subst hc; decide),
      Option.some_bind, expectChar_cons, Option.some_bind,
      parseName_exact hcred hcredall
        (by intro c hc; simp at hc; subst hc; decide),
      Option.some_bind]
    show (parseName (fld ++ ']' :: rest)).bind _ = _
    rw [parseName_exact hfld hfldall
        (by intro c hc; simp at hc; subst hc; decide),
      Option.some_bind, expectChar_cons, Option.some_bind]

/-- Inversion of the scanner: a successful match decomposes the input
into a well-formed raw token followed by the rest. -/
theorem matchTokenAt_decomp {s : List Char} {t : VaultToken}
    {r : List Char} (h : matchTokenAt s = some (t, r)) :
    ∃ ns cred field, ns ≠ [] ∧ ns.all isNameChar = true ∧
      cred ≠ [] ∧ cred.all isNameChar = true ∧
      (∀ f, field = some f → f ≠ [] ∧ f.all isNameChar = true) ∧
      t = mkToken ns cred field ∧ s = tokenRawData ns cred field ++ r := by
  unfold matchTokenAt at h
  simp only [Option.bind_eq_some] at h
  obtain ⟨r0, h0, ⟨ns, r1⟩, h1, r2, h2, ⟨cred, r3⟩, h3, hrest⟩ := h
  have e0 := expectHeader_eq_some h0
  obtain ⟨hns, hnsall, hr0, -⟩ := parseName_eq_some h1
  have e2 := expectChar_eq_some h2
  obtain ⟨hcred, hcredall, hr2, -⟩ := parseName_eq_some h3
  split at hrest
  case _ r4 heq =>
    simp only [Option.some.injEq, Prod.mk.injEq] at hrest
    obtain ⟨ht, hr4⟩ := hrest
    refine ⟨ns, cred, none, hns, hnsall, hcred, hcredall, by simp,
      ht.symm, ?_⟩
    subst e0 hr0 e2 hr2 heq hr4
    simp [tokenRawData]
  case _ r4 heq =>
    simp only [Option.bind_eq_some, Option.some.injEq, Prod.mk.injEq] at hrest
    obtain ⟨⟨fld, r5⟩, h5, r6, h6, ht, hr6⟩ := hrest
    obtain ⟨hfld, hfldall, hr4, -⟩ := parseName_eq_some h5
    have e6 := expectChar_eq_some h6
    refine ⟨ns, cred, some fld, hns, hnsall, hcred, hcredall, ?_,
      ht.symm, ?_⟩
    · intro f hf
      injection hf with hf
      subst hf
      exact ⟨hfld, hfldall⟩
    · subst e0 hr0 e2 hr2 heq hr4 e6 hr6
      simp [tokenRawData]
  all_goals exact Option.noConfusion hrest

/-- Fuel-driven scan for `matchAll`: at each position try `matchTokenAt`;
on success emit the token and resume after the match, otherwise advance
one character.  The fuel bounds the number of scan steps; `findTokens`
supplies `s.length`, which is always enough. -/
def findTokensFuel : Nat → List Char → List VaultToken
  | 0, _ => []
  | _ + 1, [] => []
  | fuel + 1, c :: rest =>
    match matchTokenAt (c :: rest) with
    | some (t, r) => t :: findTokensFuel fuel r
    | none => findTokensFuel fuel rest

/-- All non-overlapping matches of `TOKEN_PATTERN` in `s`, left to
right. -/
def findTokens (s : List Char) : List VaultToken :=
  findTokensFuel s.length s

/-- `TokenEngine.extractTokens`: extract all vault tokens from text. -/
def extractTokens (text : String) : List VaultToken :=
  findTokens text.data

/-- Does any position of `s` start a match of `TOKEN_PATTERN`?  This is
the semantics of `pattern.test` on an unanchored regex. -/
def hasTokenMatch : List Char → Bool
  | [] => false
  | c :: rest => (matchTokenAt (c :: rest)).isSome || hasTokenMatch rest

/-- `TokenEngine.validateTokenFormat`: `pattern.test(token)` for the
(unanchored) token pattern. -/
def validateTokenFormat (token : String) : Bool :=
  hasTokenMatch token.data

example :
    extractTokens "Use [VAULT:personal:api_key] to authenticate" =
      [⟨"[VAULT:personal:api_key]", "personal", "api_key", none⟩] := by
  decide

example :
    extractTokens "A [VAULT:personal:chase_login.username] and [VAULT:personal:chase_login.password]" =
      [⟨"[VAULT:personal:chase_login.username]", "personal", "chase_login", some "username"⟩,
       ⟨"[VAULT:personal:chase_login.password]", "personal", "chase_login", some "password"⟩] := by
  decide

example : extractTokens "Invalid: [VAULT:invalid] and VAULT:personal:no_brackets" = [] := by
  decide

example : validateTokenFormat "[VAULT:personal:simple]" = true := by decide

example : validateTokenFormat "[VAULT:invalid]" = false := by decide

/-- JavaScript values as they flow through the engine: the
JSON-representable values of parsed credential payloads, `undefined`
(accessing an absent property), and the two shapes reachable through
the prototype chain of a plain parsed-JSON object — an inherited
native method of `Object.prototype` (`vfun`, carrying its name) and
the `Object.prototype` object itself (`vprotoObject`, the value of
`__proto__`).  Arrays occur in no credential of the repository's tests
or claims and are omitted. -/
inductive JsVal where
  | vstr (s : String)
  | vnum (n : Int)
  | vbool (b : Bool)
  | vnull
  | vundefined
  | vobj (props : List (String × JsVal))
  | vfun (name : String)
  | vprotoObject
deriving Repr

/-- The JS `typeof` operator on the modelled values (`typeof null` is
`"object"`, a function is `"function"`). -/
def jsTypeof : JsVal → String
  | .vstr _ => "string"
  | .vnum _ => "number"
  | .vbool _ => "boolean"
  | .vundefined => "undefined"
  | .vnull => "object"
  | .vobj _ => "object"
  | .vfun _ => "function"
  | .vprotoObject => "object"

/-- JS falsiness, as tested by `if (!credential)`. -/
def jsFalsy : JsVal → Bool
  | .vstr s => s = ""
  | .vnum n => n = 0
  | .vbool b => !b
  | .vnull => true
  | .vundefined => true
  | .vobj _ => false
  | .vfun _ => false
  | .vprotoObject => false

/-- The property names a plain object inherits from `Object.prototype`
(its own members, visible to the `in` operator and to property access
on every parsed-JSON object). -/
def objectPrototypeMembers : List String :=
  ["constructor", "hasOwnProperty", "isPrototypeOf", "propertyIsEnumerable",
   "toLocaleString", "toString", "valueOf", "__proto__", "__defineGetter__",
   "__defineSetter__", "__lookupGetter__", "__lookupSetter__"]

/-- The JS `in` operator on the receivers the engine applies it to.  A
plain parsed-JSON object owns its parsed properties and inherits the
`Object.prototype` members, so `in` is true for both; `Object.prototype`
itself owns exactly those members.  The engine never applies `in` to a
primitive (the `typeof` guard runs first, and in JS it would throw) nor
to a function value, so those receivers answer `false` here. -/
def jsHasProp (v : JsVal) (k : String) : Bool :=
  match v with
  | .vobj props => (props.lookup k).isSome || objectPrototypeMembers.contains k
  | .vprotoObject => objectPrototypeMembers.contains k
  | _ => false

/-- JS property access `v[k]` on the receivers the engine reads: an own
property of a parsed-JSON object, else the inherited `Object.prototype`
member — `__proto__` is `Object.prototype` itself, `constructor` is the
`Object` function, the rest are native methods under their own name —
else `undefined`.  On primitives the engine only ever reads `value`
(the no-selector branch of `resolveToken`), which is `undefined` on all
of them. -/
def jsGetProp (v : JsVal) (k : String) : JsVal :=
  match v with
  | .vobj props =>
    match props.lookup k with
    | some w => w
    | none =>
      if k = "__proto__" then .vprotoObject
      else if k = "constructor" then .vfun "Object"
      else if objectPrototypeMembers.contains k then .vfun k
      else .vundefined
  | _ => .vundefined

/-- The JS `String(·)` coercion applied by `String.prototype.replace` to
a non-string replacement value; a native function prints its source
stub. -/
def jsToString : JsVal → String
  | .vstr s => s
  | .vnum n => toString n
  | .vbool b => if b then "true" else "false"
  | .vnull => "null"
  | .vundefined => "undefined"
  | .vobj _ => "[object Object]"
  | .vfun name => "function " ++ name ++ "() { [native code] }"
  | .vprotoObject => "[object Object]"

/-- Split `s` at the first occurrence of `pat`: `some (before, after)`
with `s = before ++ pat ++ after` and `before` shortest, or `none` when
`pat` does not occur.  This is the search step of
`String.prototype.replace` with a string pattern. -/
def splitFirst (pat : List Char) : List Char → Option (List Char × List Char)
  | [] => if pat.isPrefixOf ([] : List Char) then some ([], []) else none
  | c :: rest =>
    if pat.isPrefixOf (c :: rest) then some ([], (c :: rest).drop pat.length)
    else (splitFirst pat rest).map fun q => (c :: q.1, q.2)

/-- Replacement-pattern expansion of `String.prototype.replace` for a
string search pattern: `$$` yields `$`, `$&` the matched text, a dollar
followed by a backquote the text before the match, a dollar followed by
an apostrophe the text after it.  `$n` and `$<name>` apply only to
RegExp patterns and stay literal here. -/
def expandReplacement (matched bfr aft : List Char) : List Char → List Char
  | [] => []
  | c :: rest =>
    if c = '$' then
      match rest with
      | [] => ['$']
      | d :: rest' =>
        if d = '$' then '$' :: expandReplacement matched bfr aft rest'
        else if d = '&' then matched ++ expandReplacement matched bfr aft rest'
        else if d = Char.ofNat 96 then bfr ++ expandReplacement matched bfr aft rest'
        else if d = Char.ofNat 39 then aft ++ expandReplacement matched bfr aft rest'
        else '$' :: d :: expandReplacement matched bfr aft rest'
    else c :: expandReplacement matched bfr aft rest

/-- JS `s.replace(pat, rep)` with a string pattern: replace the first
occurrence of `pat`, expanding replacement patterns in `rep`; return `s`
unchanged when `pat` does not occur. -/
def jsReplace (s pat rep : String) : String :=
  match splitFirst pat.data s.data with
  | none => s
  | some (bfr, aft) =>
    String.mk (bfr ++ expandReplacement pat.data bfr aft rep.data ++ aft)

/-- The `VaultError` values thrown by the engine and the MCP server
(class `VaultError` in `src/types/index.ts`): the constructor carries
the data interpolated into the source's message, and the constructor
name is the source's error `code` (`CREDENTIAL_NOT_FOUND`,
`FIELD_NOT_FOUND`, `AUTH_FAILED`). -/
inductive VaultErr where
  | credentialNotFound (key : String)
  | fieldNotFound (field : String) (key : String)
  | authFailed (msg : String)
deriving Repr, DecidableEq

/-- The credentials map handed to `substituteTokens` (a JS `Map` from
`"namespace:credential"` keys to parsed payloads). -/
abbrev CredMap := List (String × JsVal)

/-- `TokenEngine.resolveToken`: resolve one token against the
credentials map.  `credentials.get(key)` yields `undefined` when the key
is absent and the code treats every falsy credential as not found; a
field selector requires an object receiver owning the field; without a
selector a non-string credential contributes its `value` property. -/
def resolveToken (token : VaultToken) (credentials : CredMap) :
    Except VaultErr (String × JsVal) :=
  let key := token.nspace ++ ":" ++ token.credential
  let credential := (credentials.lookup key).getD .vundefined
  if jsFalsy credential then .error (.credentialNotFound key)
  else
    match token.field with
    | some f =>
      if jsTypeof credential != "object" || !jsHasProp credential f then
        .error (.fieldNotFound f key)
      else .ok (token.raw, jsGetProp credential f)
    | none =>
      .ok (token.raw,
        if jsTypeof credential = "string" then credential
        else jsGetProp credential "value")

/-- `TokenEngine.substituteTokens`: extract all tokens, resolve each one
(`Promise.all` rejects with the error of the first failing resolution;
the resolutions are deterministic, so that is the first in token order),
then rewrite by replacing, for each resolution in order, the first
remaining occurrence of its raw text.  The returned elapsed time is not
modelled. -/
def substituteTokens (text : String) (credentials : CredMap) :
    Except VaultErr String :=
  match (extractTokens text).mapM (fun t => resolveToken t credentials) with
  | .error e => .error e
  | .ok substitutions =>
    .ok (substitutions.foldl
      (fun result sub => jsReplace result sub.1 (jsToString sub.2)) text)

example :
    substituteTokens "API Key: [VAULT:personal:github_token]"
      [("personal:github_token", .vstr "ghp_1234567890abcdef")] =
    .ok "API Key: ghp_1234567890abcdef" := by rfl

example :
    substituteTokens
      "Login: [VAULT:personal:bank.username] Password: [VAULT:personal:bank.password]"
      [("personal:bank", .vobj [("username", .vstr "matthew@example.com"),
        ("password", .vstr "secure123"), ("account", .vstr "1234567890")])] =
    .ok "Login: matthew@example.com Password: secure123" := by rfl

example :
    substituteTokens "Missing: [VAULT:personal:missing_cred]" [] =
    .error (.credentialNotFound "personal:missing_cred") := by rfl

example :
    substituteTokens "Missing field: [VAULT:personal:cred.missing_field]"
      [("personal:cred", .vobj [("username", .vstr "test")])] =
    .error (.fieldNotFound "missing_field" "personal:cred") := by rfl

/-- A row of the `credentials` table of the SQLite layer
(`src/core/db.js`).  Columns consulted by no modelled operation
(`type`, `description`, `sensitivity_level`, `encryption_key_id`, the
timestamps) are omitted.  `encrypted_data` stores `JSON.stringify` of
the payload and every reader immediately applies `JSON.parse`, so the
column is modelled by the parsed value (stringify-then-parse is the
identity on `JsVal`). -/
structure DbCredential where
  id : String
  nspace : String
  name : String
  encryptedData : JsVal

/-- A row of the `access_grants` table (`created_at` omitted; the schema
has no expiry column). -/
structure DbGrant where
  id : String
  credentialId : String
  agentId : String
  usesRemaining : Option Int
  isActive : Bool

/-- The mutable state behind `VaultDB`: the two tables. -/
structure VaultDBState where
  credentials : List DbCredential
  grants : List DbGrant

namespace VaultDB

/-- `VaultDB.getCredential`: `SELECT * FROM credentials WHERE namespace
= ? AND name = ?` (at most one row by the UNIQUE(namespace, name)
constraint; `stmt.get` returns the first). -/
def getCredential (db : VaultDBState) (nspace name : String) :
    Option DbCredential :=
  db.credentials.find? fun c => c.nspace == nspace && c.name == name

/-- `VaultDB.createGrant`: `INSERT INTO access_grants ...`. -/
def createGrant (db : VaultDBState) (grant : DbGrant) : VaultDBState :=
  { db with grants := db.grants ++ [grant] }

/-- `VaultDB.hasAccess`: `SELECT COUNT(*) FROM access_grants WHERE
agent_id = ? AND credential_id = ? AND is_active = 1`, compared with 0.
The query is a pure read: it consults neither `uses_remaining` nor any
expiry datum and updates nothing. -/
def hasAccess (db : VaultDBState) (agentId credentialId : String) : Bool :=
  db.grants.any fun g =>
    g.agentId == agentId && g.credentialId == credentialId && g.isActive

end VaultDB

/-- The `"namespace:credential"` key both servers build for a token. -/
def tokenKey (t : VaultToken) : String :=
  t.nspace ++ ":" ++ t.credential

/-- JS `Map.prototype.set`: update in place when the key exists,
otherwise append. -/
def mapSet (m : CredMap) (k : String) (v : JsVal) : CredMap :=
  match m with
  | [] => [(k, v)]
  | (k', v') :: rest =>
    if k' = k then (k, v) :: rest else (k', v') :: mapSet rest k v

/-- JS `String.prototype.split` with a one-character separator:
`"a:b:c".split(':')` is `["a","b","c"]`, `"".split(':')` is `[""]`. -/
def splitOnChar (sep : Char) : List Char → List (List Char)
  | [] => [[]]
  | c :: rest =>
    match splitOnChar sep rest with
    | [] => [[]]
    | group :: groups =>
      if c = sep then [] :: group :: groups else (c :: group) :: groups

namespace MCPServerJS

/-- `UniversalVaultMCPServer.hasAccess` of the database-backed MCP
server (`src/servers/mcp-server.js`, lines 345-351): split the key at
`:`, look the credential up, deny when it is missing or its id is
falsy, otherwise consult the grant table.  (When the key holds no `:`,
the destructured `name` is `undefined`; every caller builds the key as
`namespace:credential`, and the unreachable case is modelled as the
empty name.) -/
def hasAccess (db : VaultDBState) (agentId credentialKey : String) : Bool :=
  let parts := (splitOnChar ':' credentialKey.data).map String.mk
  let nspace := parts.headD ""
  let name := (parts.drop 1).headD ""
  match VaultDB.getCredential db nspace name with
  | none => false
  | some credential =>
    if credential.id = "" then false
    else VaultDB.hasAccess db agentId credential.id

/-- `handleTokenSubstitution` of the database-backed MCP server: return
the text unchanged when it holds no token; throw `AUTH_FAILED` naming
the key of the first token whose access check fails, before any
credential is read; otherwise build the credentials map from the
database (skipping keys with no credential row) and substitute.  A
thrown `VaultError` is the `.error` case. -/
def handleTokenSubstitution (db : VaultDBState) (text agent_id : String) :
    Except VaultErr String :=
  let tokens := extractTokens text
  if tokens.isEmpty then .ok text
  else
    match tokens.find? (fun t => !hasAccess db agent_id (tokenKey t)) with
    | some t => .error (.authFailed ("No access to " ++ tokenKey t))
    | none =>
      let credentialsMap := tokens.foldl (fun m t =>
        match VaultDB.getCredential db t.nspace t.credential with
        | some credential => mapSet m (tokenKey t) credential.encryptedData
        | none => m) ([] : CredMap)
      substituteTokens text credentialsMap

end MCPServerJS

/-- An `AccessGrant` as created by `handleGrantAccess` of the in-memory
TypeScript MCP server (`src/servers/mcp-server.ts`).  Timestamps are
epoch milliseconds.  Fields consulted by no claim (`purpose`,
`allowedTools`, `requiresConfirmation`, `context`) are omitted. -/
structure AccessGrant where
  id : String
  credentialId : String
  agentId : String
  grantedAt : Nat
  expiresAt : Option Nat
  usesRemaining : Option Nat
  isActive : Bool

/-- A credential of the in-memory TS server, stored in `this.credentials`
under key `"namespace:name"`; as for the DB layer, `encryptedData` is
modelled by its parsed JSON value. -/
structure TsCredential where
  id : String
  nspace : String
  name : String
  encryptedData : JsVal

namespace MCPServerTS

/-- `UniversalVaultMCPServer.hasAccess` of the in-memory TypeScript MCP
server (`src/servers/mcp-server.ts`, lines 390-393): the body is
`return true` under a `TODO: Implement proper access checking based on
grants` comment — every agent is allowed every credential key and the
grant table is never consulted. -/
def hasAccess (_grants : List AccessGrant) (_agentId _credentialKey : String) :
    Bool :=
  true

/-- The grant built for one credential id by `handleGrantAccess`
(lines 310-334): a positive duration sets an absolute expiry
`now + duration_minutes * 60 * 1000`, a positive `max_uses` sets the
remaining-use counter, and the grant starts active.  `newId` stands for
the generated id. -/
def grantOf (newId credId agent_id : String)
    (now duration_minutes max_uses : Nat) : AccessGrant :=
  { id := newId
    credentialId := credId
    agentId := agent_id
    grantedAt := now
    expiresAt := if duration_minutes > 0
      then some (now + duration_minutes * 60 * 1000) else none
    usesRemaining := if max_uses > 0 then some max_uses else none
    isActive := true }

/-- `handleGrantAccess` of the TS server: append one grant per requested
credential id (`freshIds` stands for the generated ids). -/
def handleGrantAccess (grants : List AccessGrant)
    (freshIds credential_ids : List String) (agent_id : String)
    (now duration_minutes max_uses : Nat) : List AccessGrant :=
  grants ++ (credential_ids.zip freshIds).map fun p =>
    grantOf p.2 p.1 agent_id now duration_minutes max_uses

/-- `handleTokenSubstitution` of the in-memory TS server
(`src/servers/mcp-server.ts`, lines 218-268): identical control flow to
the database-backed variant, with the in-memory credential map and the
constant-true `hasAccess` above. -/
def handleTokenSubstitution (credentials : List (String × TsCredential))
    (grants : List AccessGrant) (text agent_id : String) :
    Except VaultErr String :=
  let tokens := extractTokens text
  if tokens.isEmpty then .ok text
  else
    match tokens.find? (fun t => !hasAccess grants agent_id (tokenKey t)) with
    | some t => .error (.authFailed ("No access to " ++ tokenKey t))
    | none =>
      let credentialsMap := tokens.foldl (fun m t =>
        match credentials.lookup (tokenKey t) with
        | some credential => mapSet m (tokenKey t) credential.encryptedData
        | none => m) ([] : CredMap)
      substituteTokens text credentialsMap

end MCPServerTS

/-- A PII category of the schema consumed by the Categories UI server
(`config/pii-schema.json`): identifier, display data, the compiled
validation `pattern`, its human-readable `patternDescription`, the
masked-display format, the export flag (absent in JSON is `none`) and
field-type aliases. -/
structure Category where
  id : String
  name : String
  description : String
  sensitivityLevel : String
  pattern : String
  patternDescription : String
  maskFormat : String
  allowExport : Option Bool
  fieldTypes : List String
deriving Repr, DecidableEq

namespace CategoriesServer

/-- `validatePattern(value, categoryId)` of the Categories UI server:
look the category up and test the value against `new
RegExp(category.pattern)`.  The regex engine is abstracted by the
`regexTest` oracle (first argument the pattern source, second the
value); the source's catch-all that returns `false` on an invalid
pattern is part of the oracle. -/
def validatePattern (regexTest : String → String → Bool)
    (schema : List Category) (value categoryId : String) : Bool :=
  match schema.find? (fun c => c.id == categoryId) with
  | none => false
  | some category => regexTest category.pattern value

/-- Response of `GET /api/category/:id`.  The success branch is
`res.json(category)`: the entire category record, every field
included.  (The schema-not-loaded 500 branch is not modelled: the
`schema` parameter is the loaded schema.) -/
inductive CategoryGetResponse where
  | notFound
  | ok (category : Category)
deriving Repr, DecidableEq

/-- `GET /api/category/:id`. -/
def categoryEndpoint (schema : List Category) (id : String) :
    CategoryGetResponse :=
  match schema.find? (fun c => c.id == id) with
  | none => .notFound
  | some category => .ok category

/-- Response of `POST /api/vault-item/add`.  On a pattern mismatch the
server answers status 400 with `{ error, category }` — the message and
the entire category record. -/
inductive AddResponse where
  | missingFields
  | categoryNotFound
  | validationFailed (error : String) (category : Category)
  | success (token categoryId sensitivityLevel message : String)
deriving Repr, DecidableEq

/-- `POST /api/vault-item/add`: reject empty fields, look the category
up, validate the value against the category pattern, and answer with a
token on success. -/
def addVaultItem (regexTest : String → String → Bool)
    (schema : List Category) (nspace name categoryId value : String) :
    AddResponse :=
  if nspace = "" || name = "" || categoryId = "" || value = "" then
    .missingFields
  else
    match schema.find? (fun c => c.id == categoryId) with
    | none => .categoryNotFound
    | some category =>
      if !validatePattern regexTest schema value categoryId then
        .validationFailed
          ("Value does not match " ++ category.name ++ " pattern: "
            ++ category.patternDescription)
          category
      else
        .success ("[VAULT:" ++ nspace ++ ":" ++ name ++ "]") categoryId
          category.sensitivityLevel ("Added " ++ category.name ++ " to vault")

/-- An item of an export batch; only `categoryId` is consulted. -/
structure ExportItem where
  categoryId : String
deriving Repr, DecidableEq

/-- Response of `POST /api/vault/export`: a 403 with error message and
a `blockedCategories` list, or a success carrying the item count (the
timestamp and warning strings of the success body are not modelled; no
item data is returned in either case). -/
inductive ExportResponse where
  | blocked (error : String) (blockedCategories : List String)
  | success (itemCount : Nat)
deriving Repr, DecidableEq

/-- The per-item test of the export endpoint:
`category?.allowExport === false && category?.sensitivityLevel ===
"critical"` — false when the category is unknown or `allowExport` is
absent. -/
def isBlockingItem (schema : List Category) (item : ExportItem) : Bool :=
  match schema.find? (fun c => c.id == item.categoryId) with
  | none => false
  | some c => c.allowExport == some false && c.sensitivityLevel == "critical"

/-- The fixed error message of the blocked branch. -/
def exportBlockedError : String :=
  "Cannot export vault containing critical PII (SSN, credit card, API keys, private keys)"

/-- The hard-coded `blockedCategories` list of the blocked branch. -/
def exportBlockedCategories : List String :=
  ["ssn", "credit_card", "api_key", "private_key", "database_password"]

/-- `POST /api/vault/export` (lines 352-402 of the Categories UI
server): when some item is blocking, refuse with the fixed message and
the hard-coded category list; otherwise report success with the item
count. -/
def exportEndpoint (schema : List Category) (items : List ExportItem) :
    ExportResponse :=
  if items.any (isBlockingItem schema) then
    .blocked exportBlockedError exportBlockedCategories
  else
    .success items.length

/-- The category identifiers of the items of the batch that block the
export — what the claim says the error must enumerate.  Stated from the
claim's words, for comparison with the hard-coded list the code
returns. -/
def batchBlockingCategories (schema : List Category)
    (items : List ExportItem) : List String :=
  ((items.filter (isBlockingItem schema)).map (·.categoryId)).dedup

end CategoriesServer

/-! ### Well-formed token texts

The round-trip claim quantifies over texts "containing only well-formed
tokens".  Such a text is modelled as a list of chunks: literal segments
interleaved with tokens of the grammar. -/

/-- A building block of a well-formed token text. -/
inductive Chunk where
  | lit (s : String)
  | tok (ns cred : String) (field : Option String)

/-- The characters a chunk contributes to the source text. -/
def chunkData : Chunk → List Char
  | .lit s => s.data
  | .tok ns cred field => tokenRawData ns.data cred.data (field.map String.data)

/-- The token a token chunk denotes. -/
def chunkToken : Chunk → Option VaultToken
  | .lit _ => none
  | .tok ns cred field => some (mkToken ns.data cred.data (field.map String.data))

/-- The tokens of a chunk list, in order. -/
def chunkTokens (cs : List Chunk) : List VaultToken :=
  cs.filterMap chunkToken

/-- Well-formedness of one chunk: a literal segment contains no opening
bracket (in particular no token marker), token components are nonempty
runs of name characters. -/
def chunkWF : Chunk → Bool
  | .lit s => s.data.all (fun c => c != '[')
  | .tok ns cred field =>
    !ns.data.isEmpty && ns.data.all isNameChar &&
    !cred.data.isEmpty && cred.data.all isNameChar &&
    (match field with
     | none => true
     | some f => !f.data.isEmpty && f.data.all isNameChar)

/-- Well-formedness of a whole token text. -/
def chunksWF (cs : List Chunk) : Bool := cs.all chunkWF

/-- The source text of a chunk list. -/
def renderChunks (cs : List Chunk) : String :=
  String.mk (cs.map chunkData).flatten

/-- The characters a chunk contributes to the substituted output, each
token replaced by the string form of its value under `v`. -/
def chunkOut (v : VaultToken → JsVal) : Chunk → List Char
  | .lit s => s.data
  | .tok ns cred field =>
    (jsToString (v (mkToken ns.data cred.data (field.map String.data)))).data

/-- The expected output text of a substitution over a chunk list. -/
def renderSubst (v : VaultToken → JsVal) (cs : List Chunk) : String :=
  String.mk (cs.map (chunkOut v)).flatten

/-- Does `l` contain `pat` as a contiguous substring? -/
def containsSubstr (pat : List Char) : List Char → Bool
  | [] => pat.isPrefixOf ([] : List Char)
  | c :: rest => pat.isPrefixOf (c :: rest) || containsSubstr pat rest

/-- A resolved value whose text can neither introduce a token marker
nor trigger a `$` replacement pattern of `String.prototype.replace`. -/
def cleanValue (s : String) : Bool :=
  s.data.all fun c => c != '[' && c != '$'

/-! ### Concrete fixtures used by the claim theorems -/

/-- The `ssn` category as documented in the repository's schema
(critical tier, export blocked). -/
def ssnCategory : Category :=
  { id := "ssn"
    name := "Social Security Number"
    description := "US Social Security Number"
    sensitivityLevel := "critical"
    pattern := "^\\d{3}-\\d{2}-\\d{4}$"
    patternDescription := "3-digit-2-digit-4-digit (e.g., 123-45-6789)"
    maskFormat := "***-**-XXXX"
    allowExport := some false
    fieldTypes := ["ssn", "social_security_number", "tax_id"] }

/-- An exportable medium-tier category. -/
def emailCategory : Category :=
  { id := "email"
    name := "Email Address"
    description := "Email address"
    sensitivityLevel := "medium"
    pattern := "^[^@]+@[^@]+$"
    patternDescription := "name@domain"
    maskFormat := "x***@***"
    allowExport := some true
    fieldTypes := ["email"] }

/-- A critical export-blocked category whose id is not on the export
endpoint's hard-coded list. -/
def taxIdCategory : Category :=
  { id := "tax_id"
    name := "Employer Identification Number"
    description := "US EIN"
    sensitivityLevel := "critical"
    pattern := "^\\d{2}-\\d{7}$"
    patternDescription := "2-digit-7-digit (e.g., 12-3456789)"
    maskFormat := "**-***XXXX"
    allowExport := some false
    fieldTypes := ["ein", "tax_id"] }

/-- A loaded schema instance for the Categories UI claims. -/
def testSchema : List Category := [ssnCategory, emailCategory, taxIdCategory]

/-- A schema for the export counterexample: the blocking category of
the batch is `tax_id`, which the hard-coded list does not contain. -/
def exportSchema : List Category := [taxIdCategory, emailCategory]

/-- One blocking item and nine exportable ones. -/
def exportBatch : List CategoriesServer.ExportItem :=
  ⟨"tax_id"⟩ :: List.replicate 9 ⟨"email"⟩

/-- The chunk form of the spec's structured-credential example text. -/
def chaseChunks : List Chunk :=
  [.tok "personal" "chase_login" (some "username"), .lit " / ",
   .tok "personal" "chase_login" (some "password")]

/-- The structured credential `personal:chase_login` of the example. -/
def chaseCreds : CredMap :=
  [("personal:chase_login",
    .vobj [("username", .vstr "m@x.com"), ("password", .vstr "p1")])]

/-- The resolved value of each token of the example. -/
def chaseVals (t : VaultToken) : JsVal :=
  if t.field = some "username" then .vstr "m@x.com" else .vstr "p1"

/-- A database holding one credential row and one active single-use
grant on it. -/
def dbSingleUse : VaultDBState :=
  VaultDB.createGrant
    { credentials := [⟨"cred1", "personal", "chase_login",
        .vobj [("username", .vstr "m@x.com"), ("password", .vstr "p1")]⟩]
      grants := [] }
    { id := "g1", credentialId := "cred1", agentId := "agent"
      usesRemaining := some 1, isActive := true }

/-! ### Claim theorems -/

/-- C1: the claim says the access check consults the grant table and
denies by default, so a caller without an active grant never receives a
secret value from a substitution request.  The in-memory MCP server of
`src/servers/mcp-server.ts` violates this: its `hasAccess` is constant
`true` (under a `TODO` comment), so with an *empty* grant table the
agent `"intruder"` passes the check and `handleTokenSubstitution`
returns the secret `"hunter2"` in clear text.  (The database-backed
variant in `src/servers/mcp-server.js` does consult the grant table;
the allow-all body is the slip the repository's own TODO and the spec's
design note both flag.) -/
theorem C1_ungranted_caller_receives_secret :
    MCPServerTS.hasAccess [] "intruder" "personal:api_key" = true ∧
    MCPServerTS.handleTokenSubstitution
      [("personal:api_key", ⟨"cred1", "personal", "api_key", .vstr "hunter2"⟩)]
      [] "key: [VAULT:personal:api_key]" "intruder" = .ok "key: hunter2" :=
  ⟨rfl, rfl⟩

/-- C2: the claim says a `maxUses = 1` grant allows exactly one check
and the successful check atomically decrements the counter.
`VaultDB.hasAccess` is a pure `SELECT` returning a `Bool` — it changes
no state, so after a first successful check the database is the same
value and the immediately following check on the same grant succeeds
again; it does not read `uses_remaining` at all, so even an exhausted
grant (`uses_remaining = 0`) passes. -/
theorem C2_single_use_grant_not_consumed :
    VaultDB.hasAccess dbSingleUse "agent" "cred1" = true ∧
    VaultDB.hasAccess dbSingleUse "agent" "cred1" = true ∧
    VaultDB.hasAccess
      { credentials := []
        grants := [{ id := "g1", credentialId := "cred1", agentId := "agent"
                     usesRemaining := some 0, isActive := true }] }
      "agent" "cred1" = true :=
  ⟨rfl, rfl, rfl⟩

/-- C3: the claim says a grant past its expiry is denied regardless of
remaining uses and the active flag... the TS server's
`handleGrantAccess` does record `expiresAt = now + 30 min`, but its
access check is constant `true` and reads no clock, so at any later
time — in particular 3,600,000 ms, past the 1,800,000 ms expiry — the
check still allows; and the SQLite grant table has no expiry column at
all, so the database-backed check cannot consult one either. -/
theorem C3_expired_grant_still_allowed :
    MCPServerTS.grantOf "g1" "cred1" "agent" 0 30 5 =
      { id := "g1", credentialId := "cred1", agentId := "agent"
        grantedAt := 0, expiresAt := some 1800000
        usesRemaining := some 5, isActive := true } ∧
    MCPServerTS.hasAccess [MCPServerTS.grantOf "g1" "cred1" "agent" 0 30 5]
      "agent" "personal:chase_login" = true ∧
    VaultDB.hasAccess
      { credentials := []
        grants := [{ id := "g1", credentialId := "cred1", agentId := "agent"
                     usesRemaining := some 5, isActive := true }] }
      "agent" "cred1" = true :=
  ⟨rfl, rfl, rfl⟩

/-- C4 (counterexample): for the batch of one `tax_id` item and nine
`email` items the export endpoint does reject the whole batch, but the
`blockedCategories` list it returns is the hard-coded five-element
list, not the enumeration `["tax_id"]` of the categories of the items
that block this batch, contrary to the claim. -/
theorem C4_blocked_list_is_fixed :
    CategoriesServer.exportEndpoint exportSchema exportBatch =
      .blocked CategoriesServer.exportBlockedError
        CategoriesServer.exportBlockedCategories ∧
    CategoriesServer.batchBlockingCategories exportSchema exportBatch =
      ["tax_id"] ∧
    CategoriesServer.exportBlockedCategories ≠ ["tax_id"] :=
  ⟨rfl, rfl, by decide⟩

/-- C4 (amended): for every batch containing a critical-tier,
export-disallowed item, the endpoint rejects the entire batch — the 403
response carries no item data, so no partial export occurs — and
returns the fixed list `ssn, credit_card, api_key, private_key,
database_password`, independent of which categories block the batch. -/
theorem C4_export_rejects_whole_batch (schema : List Category)
    (items : List CategoriesServer.ExportItem)
    (h : ∃ it ∈ items, CategoriesServer.isBlockingItem schema it = true) :
    CategoriesServer.exportEndpoint schema items =
      .blocked CategoriesServer.exportBlockedError
        CategoriesServer.exportBlockedCategories := by
  have hany : items.any (CategoriesServer.isBlockingItem schema) = true :=
    List.any_eq_true.2 h
  simp [CategoriesServer.exportEndpoint, hany]

theorem C4_export_rejects_whole_batch_witness :
    CategoriesServer.exportEndpoint exportSchema exportBatch =
      .blocked CategoriesServer.exportBlockedError
        CategoriesServer.exportBlockedCategories :=
  C4_export_rejects_whole_batch exportSchema exportBatch
    ⟨⟨"tax_id"⟩, by decide, by decide⟩

/-- C5: the claim says no external response ever contains the compiled
validation pattern.  The code violates it twice: `GET /api/category/:id`
answers `res.json(category)` — the full record, compiled `pattern`
included — and the `FormatValidationFailed` branch of
`POST /api/vault-item/add` answers `{ error, category }`, again with the
full record.  (The repository's own security documents state the
opposite: "patterns never exposed to client".)  The oracle `fun _ _ =>
false` stands for the regex engine's verdict on the non-matching value
`"12"`. -/
theorem C5_pattern_exposed_in_responses :
    CategoriesServer.categoryEndpoint testSchema "ssn" = .ok ssnCategory ∧
    CategoriesServer.addVaultItem (fun _ _ => false) testSchema
      "personal" "my_ssn" "ssn" "12" =
      .validationFailed
        ("Value does not match Social Security Number pattern: 3-digit-2-digit-4-digit (e.g., 123-45-6789)")
        ssnCategory ∧
    ssnCategory.pattern = "^\\d{3}-\\d{2}-\\d{4}$" :=
  ⟨rfl, rfl, rfl⟩

/-- C6: for every substitution request whose text contains at least one
token the caller's access check denies, the database-backed MCP server
aborts the whole operation: all tokens are checked before any
credential is read, and the result is exactly the `AUTH_FAILED` error
naming the first denied key — it contains no substituted value of any
other, allowed token (fail-closed for the whole batch). -/
theorem C6_denied_token_fails_whole_batch (db : VaultDBState)
    (text agent_id : String) (t0 : VaultToken)
    (h : (extractTokens text).find?
      (fun t => !MCPServerJS.hasAccess db agent_id (tokenKey t)) = some t0) :
    MCPServerJS.handleTokenSubstitution db text agent_id =
      .error (.authFailed ("No access to " ++ tokenKey t0)) := by
  have hne : (extractTokens text).isEmpty = false := by
    cases hE : extractTokens text with
    | nil => rw [hE] at h; simp at h
    | cons a l => rfl
  simp only [MCPServerJS.handleTokenSubstitution, hne, h]
  rfl

/-- The database for the C6 witness: the agent holds a grant on
`personal:chase_login` (credential `c1`) but none on `personal:ssn`. -/
def c6Db : VaultDBState :=
  { credentials :=
      [⟨"c1", "personal", "chase_login", .vobj [("username", .vstr "m@x.com")]⟩,
       ⟨"c2", "personal", "ssn", .vstr "123-45-6789"⟩]
    grants := [⟨"g1", "c1", "agent", none, true⟩] }

theorem C6_denied_token_fails_whole_batch_witness :
    MCPServerJS.handleTokenSubstitution c6Db
      "[VAULT:personal:chase_login.username] and [VAULT:personal:ssn]"
      "agent" =
      .error (.authFailed "No access to personal:ssn") :=
  C6_denied_token_fails_whole_batch c6Db
    "[VAULT:personal:chase_login.username] and [VAULT:personal:ssn]"
    "agent" ⟨"[VAULT:personal:ssn]", "personal", "ssn", none⟩ (by decide)

/-- The guard of `resolveToken`: with a field selector, a non-falsy
credential that is not object-typed, or an object for which the `in`
operator is false, fails with `FIELD_NOT_FOUND`.  Because `in` walks
the prototype chain, `jsHasProp v f = false` requires `f` to be absent
both from the payload and from the `Object.prototype` members. -/
theorem resolveToken_guard_fieldNotFound (token : VaultToken)
    (credentials : CredMap) (f : String) (v : JsVal)
    (hf : token.field = some f)
    (hv : credentials.lookup (tokenKey token) = some v)
    (hfalsy : jsFalsy v = false)
    (h : jsTypeof v ≠ "object" ∨ jsHasProp v f = false) :
    resolveToken token credentials =
      .error (.fieldNotFound f (tokenKey token)) := by
  have hcond : (jsTypeof v != "object" || !jsHasProp v f) = true := by
    rcases h with h | h
    · simp [bne_iff_ne, h]
    · simp [h]
  simp only [tokenKey] at hv ⊢
  simp only [resolveToken]
  rw [show credentials.lookup (token.nspace ++ ":" ++ token.credential)
    = some v from hv]
  simp [hfalsy, hf, hcond]

example :
    resolveToken
      ⟨"[VAULT:personal:ssn_card.ssn]", "personal", "ssn_card", some "ssn"⟩
      [("personal:ssn_card", .vstr "123-45-6789")] =
      .error (.fieldNotFound "ssn" "personal:ssn_card") :=
  resolveToken_guard_fieldNotFound _ _ "ssn" (.vstr "123-45-6789")
    rfl rfl rfl (Or.inl (by decide))

/-- C10: a token without field selector whose credential resolves to a
non-string object contributes the object's `value` member; when that
member is absent the contributed value is `undefined`, no error is
raised, and `String(undefined)` — the coercion `replace` applies —
is the text `"undefined"`. -/
theorem C10_missing_value_member_becomes_undefined (token : VaultToken)
    (credentials : CredMap) (v : JsVal)
    (hf : token.field = none)
    (hv : credentials.lookup (tokenKey token) = some v)
    (hobj : jsTypeof v = "object")
    (hfalsy : jsFalsy v = false) :
    resolveToken token credentials = .ok (token.raw, jsGetProp v "value") ∧
      (jsHasProp v "value" = false → jsGetProp v "value" = .vundefined) ∧
      jsToString .vundefined = "undefined" := by
  refine ⟨?_, ?_, rfl⟩
  · simp only [tokenKey] at hv
    simp only [resolveToken]
    rw [show credentials.lookup (token.nspace ++ ":" ++ token.credential)
      = some v from hv]
    simp [hfalsy, hf, hobj]
  · intro hnp
    cases v with
    | vobj props =>
      simp only [jsHasProp] at hnp
      cases hl : List.lookup "value" props with
      | none =>
        simp only [jsGetProp]
        rw [hl]
        rfl
      | some w => rw [hl] at hnp; simp at hnp
    | vnull => simp [jsFalsy] at hfalsy
    | vstr s => simp [jsTypeof] at hobj
    | vnum n => simp [jsTypeof] at hobj
    | vbool b => simp [jsTypeof] at hobj
    | vundefined => simp [jsTypeof] at hobj
    | vfun name => simp [jsTypeof] at hobj
    | vprotoObject => rfl

/-- The test of an unanchored regex succeeds exactly when a match
starts at some position. -/
theorem hasTokenMatch_eq_true_iff (l : List Char) :
    hasTokenMatch l = true ↔
      ∃ p rest t r, l = p ++ rest ∧ matchTokenAt rest = some (t, r) := by
  induction l with
  | nil =>
    constructor
    · intro h
      exact absurd h (by simp [hasTokenMatch])
    · rintro ⟨p, rest, t, r, hl, hm⟩
      obtain ⟨hp, hrest⟩ := List.append_eq_nil.1 hl.symm
      subst hrest
      exact Option.noConfusion hm
  | cons c cl ih =>
    constructor
    · intro h
      simp only [hasTokenMatch, Bool.or_eq_true] at h
      rcases h with hm | hm
      · obtain ⟨⟨t, r⟩, hm'⟩ := Option.isSome_iff_exists.1 hm
        exact ⟨[], c :: cl, t, r, rfl, hm'⟩
      · obtain ⟨p, rest, t, r, hl, hmm⟩ := ih.1 hm
        exact ⟨c :: p, rest, t, r, by rw [hl]; rfl, hmm⟩
    · rintro ⟨p, rest, t, r, hl, hm⟩
      cases p with
      | nil =>
        simp only [List.nil_append] at hl
        subst hl
        simp [hasTokenMatch, hm]
      | cons c' p' =>
        injection hl with h1 h2
        have : hasTokenMatch cl = true := ih.2 ⟨p', rest, t, r, h2, hm⟩
        simp [hasTokenMatch, this]

/-- A string that is exactly one well-formed token of the grammar
`[VAULT:<namespace>:<credential>(.<field>)?]`, stated from the grammar
itself: nonempty name-character runs around the literal delimiters. -/
def isTokenString (tok : String) : Prop :=
  ∃ ns cred : List Char, ∃ field : Option (List Char),
    ns ≠ [] ∧ ns.all isNameChar = true ∧
    cred ≠ [] ∧ cred.all isNameChar = true ∧
    (∀ f, field = some f → f ≠ [] ∧ f.all isNameChar = true) ∧
    tok.data = tokenRawData ns cred field

/-- C9: `validateTokenFormat` returns `true` exactly when the string
contains a well-formed token anywhere as a substring — the pattern is
unanchored, so arbitrary surrounding text is accepted and the whole
string need not be a single token. -/
theorem C9_validateTokenFormat_unanchored (s : String) :
    validateTokenFormat s = true ↔
      ∃ pre tok post : String,
        s = pre ++ tok ++ post ∧ isTokenString tok := by
  constructor
  · intro h
    obtain ⟨p, rest, t, r, hl, hm⟩ :=
      (hasTokenMatch_eq_true_iff s.data).1 h
    obtain ⟨ns, cred, field, hns, hnsall, hcred, hcredall, hfield, -, hrest⟩ :=
      matchTokenAt_decomp hm
    refine ⟨String.mk p, String.mk (tokenRawData ns cred field),
      String.mk r, ?_, ns, cred, field, hns, hnsall, hcred, hcredall,
      hfield, rfl⟩
    have : s.data = p ++ tokenRawData ns cred field ++ r := by
      rw [hl, hrest, List.append_assoc]
    calc s = String.mk s.data := rfl
    _ = _ := by rw [this]; rfl
  · rintro ⟨pre, tok, post, hs,
      ns, cred, field, hns, hnsall, hcred, hcredall, hfield, htok⟩
    refine (hasTokenMatch_eq_true_iff s.data).2
      ⟨pre.data, tokenRawData ns cred field ++ post.data, _, _, ?_,
        matchTokenAt_raw ns cred field post.data hns hnsall hcred hcredall
          hfield⟩
    rw [hs, String.data_append, String.data_append, htok,
      List.append_assoc]

theorem C9_validateTokenFormat_unanchored_witness :
    validateTokenFormat "See [VAULT:personal:api_key] here" = true :=
  (C9_validateTokenFormat_unanchored "See [VAULT:personal:api_key] here").2
    ⟨"See ", "[VAULT:personal:api_key]", " here", rfl,
      "personal".data, "api_key".data, none,
      by decide, by decide, by decide, by decide, by simp, rfl⟩

/-- Fuel at least the input length scans to the end. -/
theorem findTokensFuel_eq (fuel : Nat) :
    ∀ s : List Char, s.length ≤ fuel → findTokensFuel fuel s = findTokens s := by
  induction fuel using Nat.strong_induction_on with
  | _ fuel IH =>
    intro s hs
    cases fuel with
    | zero =>
      have hnil : s = [] := List.eq_nil_of_length_eq_zero (Nat.le_zero.1 hs)
      subst hnil
      rfl
    | succ f =>
      cases s with
      | nil => rfl
      | cons c rest =>
        simp only [List.length_cons] at hs
        cases hm : matchTokenAt (c :: rest) with
        | none =>
          have h2 : findTokens (c :: rest) = findTokensFuel rest.length rest := by
            simp only [findTokens, List.length_cons, findTokensFuel, hm]
          simp only [findTokensFuel, hm]
          rw [IH f (Nat.lt_succ_self f) rest (by omega), h2]
          rfl
        | some tr =>
          obtain ⟨t, r⟩ := tr
          have hlen := matchTokenAt_rest_length hm
          simp only [List.length_cons] at hlen
          have h2 : findTokens (c :: rest) = t :: findTokensFuel rest.length r := by
            simp only [findTokens, List.length_cons, findTokensFuel, hm]
          simp only [findTokensFuel, hm]
          rw [IH f (Nat.lt_succ_self f) r (by omega), h2,
            IH rest.length (by omega) r (by omega)]

/-- The scanner fails at any position that does not start with `[`. -/
theorem matchTokenAt_of_ne_bracket {c : Char} {rest : List Char}
    (hc : c ≠ '[') : matchTokenAt (c :: rest) = none := by
  cases hE : expectHeader (c :: rest) with
  | none =>
    unfold matchTokenAt
    rw [hE]
    rfl
  | some r =>
    have h := expectHeader_eq_some hE
    injection h with h1 h2
    exact absurd h1 hc

theorem findTokens_cons_some {c : Char} {rest : List Char} {t : VaultToken}
    {r : List Char} (h : matchTokenAt (c :: rest) = some (t, r)) :
    findTokens (c :: rest) = t :: findTokens r := by
  have hlen := matchTokenAt_rest_length h
  simp only [List.length_cons] at hlen
  simp only [findTokens, List.length_cons, findTokensFuel, h]
  rw [findTokensFuel_eq rest.length r (by omega)]
  rfl

theorem findTokens_cons_none {c : Char} {rest : List Char}
    (h : matchTokenAt (c :: rest) = none) :
    findTokens (c :: rest) = findTokens rest := by
  simp only [findTokens, List.length_cons, findTokensFuel, h]

theorem findTokens_some {s : List Char} {t : VaultToken} {r : List Char}
    (hne : s ≠ []) (h : matchTokenAt s = some (t, r)) :
    findTokens s = t :: findTokens r := by
  cases s with
  | nil => exact absurd rfl hne
  | cons c rest => exact findTokens_cons_some h

/-- Scanning skips a bracket-free literal segment. -/
theorem findTokens_append_of_clean {l : List Char}
    (hl : l.all (fun c => c != '[') = true) (r : List Char) :
    findTokens (l ++ r) = findTokens r := by
  induction l with
  | nil => rfl
  | cons c tl ih =>
    simp only [List.all_cons, Bool.and_eq_true] at hl
    obtain ⟨hc, htl⟩ := hl
    have hc' : c ≠ '[' := by simpa using hc
    rw [List.cons_append, findTokens_cons_none (matchTokenAt_of_ne_bracket hc'),
      ih htl]

/-- Unpack well-formedness of a token chunk. -/
theorem chunkWF_tok {ns cred : String} {field : Option String}
    (h : chunkWF (.tok ns cred field) = true) :
    ns.data ≠ [] ∧ ns.data.all isNameChar = true ∧
      cred.data ≠ [] ∧ cred.data.all isNameChar = true ∧
      ∀ f, field.map String.data = some f →
        f ≠ [] ∧ f.all isNameChar = true := by
  simp only [chunkWF, Bool.and_eq_true] at h
  obtain ⟨⟨⟨⟨h1, h2⟩, h3⟩, h4⟩, h5⟩ := h
  refine ⟨?_, h2, ?_, h4, ?_⟩
  · intro he
    simp [he] at h1
  · intro he
    simp [he] at h3
  · intro f hf
    cases field with
    | none => simp at hf
    | some g =>
      have hf' : g.data = f := by simpa using hf
      subst hf'
      simp only [Bool.and_eq_true] at h5
      obtain ⟨hg1, hg2⟩ := h5
      exact ⟨by intro he; simp [he] at hg1, hg2⟩

/-- Extraction over a well-formed token text yields exactly its
tokens, in order. -/
theorem findTokens_render (cs : List Chunk) (h : chunksWF cs = true) :
    findTokens (cs.map chunkData).flatten = chunkTokens cs := by
  induction cs with
  | nil => rfl
  | cons ch cs ih =>
    simp only [chunksWF, List.all_cons, Bool.and_eq_true] at h
    obtain ⟨hch, hcs⟩ := h
    cases ch with
    | lit s =>
      simp only [List.map_cons, List.flatten_cons, chunkData]
      rw [findTokens_append_of_clean (by simpa [chunkWF] using hch), ih hcs]
      simp [chunkTokens, List.filterMap_cons, chunkToken]
    | tok ns cred field =>
      obtain ⟨hns, hnsall, hcred, hcredall, hfield⟩ := chunkWF_tok hch
      simp only [List.map_cons, List.flatten_cons, chunkData]
      rw [findTokens_some (by simp [tokenRawData])
        (matchTokenAt_raw ns.data cred.data (field.map String.data)
          (cs.map chunkData).flatten hns hnsall hcred hcredall hfield),
        ih hcs]
      simp [chunkTokens, List.filterMap_cons, chunkToken]

/-- When every token resolves, `Promise.all` succeeds with the list of
resolutions in order. -/
theorem mapM_resolve_ok (tokens : List VaultToken) (credentials : CredMap)
    (v : VaultToken → JsVal)
    (h : ∀ t ∈ tokens, resolveToken t credentials = .ok (t.raw, v t)) :
    tokens.mapM (fun t => resolveToken t credentials) =
      .ok (tokens.map fun t => (t.raw, v t)) := by
  induction tokens with
  | nil => rfl
  | cons t ts ih =>
    rw [List.mapM_cons, h t (by simp), ih fun x hx => h x (by simp [hx])]
    rfl

/-- The first occurrence of a pattern that starts with `[` after a
bracket-free prefix is exactly at the end of that prefix. -/
theorem splitFirst_at {pat : List Char} (P R : List Char)
    (hpat : pat.head? = some '[')
    (hP : P.all (fun c => c != '[') = true) :
    splitFirst pat (P ++ pat ++ R) = some (P, R) := by
  induction P with
  | nil =>
    cases pat with
    | nil => simp at hpat
    | cons p0 pt =>
      have hp0 : p0 = '[' := by simpa using hpat
      subst hp0
      have hpre : ('[' :: pt).isPrefixOf ('[' :: pt ++ R) = true :=
        List.isPrefixOf_iff_prefix.2 ⟨R, rfl⟩
      simp only [List.nil_append, List.cons_append, splitFirst, List.append_eq]
      rw [List.cons_append] at hpre
      rw [hpre]
      simp [List.length_cons, List.drop_succ_cons, List.drop_left]
  | cons c P' ih =>
    simp only [List.all_cons, Bool.and_eq_true] at hP
    obtain ⟨hc, hP'⟩ := hP
    have hnp : pat.isPrefixOf (c :: (P' ++ pat ++ R)) = false := by
      cases pat with
      | nil => simp at hpat
      | cons p0 pt =>
        have hp0 : p0 = '[' := by simpa using hpat
        subst hp0
        have : ('[' == c) = false := by
          simp only [beq_eq_false_iff_ne, ne_eq]
          intro he
          simp [← he] at hc
        simp [List.isPrefixOf, this]
    have key : splitFirst pat (c :: (P' ++ pat ++ R)) = some (c :: P', R) := by
      simp only [splitFirst, hnp, Bool.false_eq_true, if_false]
      rw [ih hP']
      rfl
    simpa only [List.cons_append] using key

/-- A replacement without `$` is inserted verbatim. -/
theorem expandReplacement_of_no_dollar {rep : List Char}
    (m b a : List Char) (h : rep.all (fun c => c != '$') = true) :
    expandReplacement m b a rep = rep := by
  induction rep with
  | nil => rfl
  | cons c rest ih =>
    simp only [List.all_cons, Bool.and_eq_true] at h
    obtain ⟨hc, hrest⟩ := h
    have hc' : c ≠ '$' := by simpa using hc
    unfold expandReplacement
    rw [if_neg hc', ih hrest]

/-- `replace` after a bracket-free prefix replaces exactly the token
occurrence that follows it, inserting a clean value verbatim. -/
theorem jsReplace_clean (P : List Char) (raw val : String) (R : List Char)
    (hraw : raw.data.head? = some '[')
    (hP : P.all (fun c => c != '[') = true)
    (hval : cleanValue val = true) :
    jsReplace (String.mk (P ++ raw.data ++ R)) raw val =
      String.mk (P ++ val.data ++ R) := by
  have hd : val.data.all (fun c => c != '$') = true := by
    simp only [cleanValue, List.all_eq_true, Bool.and_eq_true] at hval ⊢
    exact fun c hc => (hval c hc).2
  unfold jsReplace
  rw [show splitFirst raw.data (String.mk (P ++ raw.data ++ R)).data =
    some (P, R) from splitFirst_at P R hraw hP]
  show String.mk (P ++ expandReplacement raw.data P R val.data ++ R) =
    String.mk (P ++ val.data ++ R)
  rw [expandReplacement_of_no_dollar _ _ _ hd]

/-- Cleanliness of concatenations. -/
theorem all_append_clean {p : Char → Bool} {l r : List Char}
    (hl : l.all p = true) (hr : r.all p = true) : (l ++ r).all p = true := by
  simp [List.all_append, hl, hr]

/-- The rewriting loop of `substituteTokens` over a well-formed token
text replaces every token occurrence, left to right, by its (clean)
resolved value. -/
theorem foldl_replace_chunks (v : VaultToken → JsVal) (cs : List Chunk)
    (hwf : chunksWF cs = true)
    (hclean : ∀ t ∈ chunkTokens cs, cleanValue (jsToString (v t)) = true) :
    ∀ P : List Char, P.all (fun c => c != '[') = true →
    ((chunkTokens cs).map fun t => (t.raw, v t)).foldl
      (fun result sub => jsReplace result sub.1 (jsToString sub.2))
      (String.mk (P ++ (cs.map chunkData).flatten)) =
      String.mk (P ++ (cs.map (chunkOut v)).flatten) := by
  induction cs with
  | nil => intro P hP; rfl
  | cons ch cs ih =>
    intro P hP
    simp only [chunksWF, List.all_cons, Bool.and_eq_true] at hwf
    obtain ⟨hch, hcs⟩ := hwf
    cases ch with
    | lit s =>
      have hsclean : s.data.all (fun c => c != '[') = true := by
        simpa [chunkWF] using hch
      have htoks : chunkTokens (Chunk.lit s :: cs) = chunkTokens cs := by
        simp [chunkTokens, List.filterMap_cons, chunkToken]
      rw [htoks] at hclean ⊢
      have h1 : P ++ (List.map chunkData (Chunk.lit s :: cs)).flatten =
          (P ++ s.data) ++ (cs.map chunkData).flatten := by
        simp [chunkData, List.append_assoc]
      have h2 : P ++ (List.map (chunkOut v) (Chunk.lit s :: cs)).flatten =
          (P ++ s.data) ++ (cs.map (chunkOut v)).flatten := by
        simp [chunkOut, List.append_assoc]
      rw [h1, h2]
      exact ih hcs hclean (P ++ s.data) (all_append_clean hP hsclean)
    | tok ns cred field =>
      have htoks : chunkTokens (Chunk.tok ns cred field :: cs) =
          mkToken ns.data cred.data (field.map String.data) :: chunkTokens cs := by
        simp [chunkTokens, List.filterMap_cons, chunkToken]
      rw [htoks] at hclean ⊢
      have hvclean :
          cleanValue (jsToString (v (mkToken ns.data cred.data
            (field.map String.data)))) = true :=
        hclean _ (List.mem_cons_self _ _)
      have hcsclean : ∀ t ∈ chunkTokens cs,
          cleanValue (jsToString (v t)) = true :=
        fun t ht => hclean t (List.mem_cons_of_mem _ ht)
      have hvb : (jsToString (v (mkToken ns.data cred.data
          (field.map String.data)))).data.all (fun c => c != '[') = true := by
        simp only [cleanValue, List.all_eq_true, Bool.and_eq_true] at hvclean ⊢
        exact fun c hc => (hvclean c hc).1
      have hstep :
          jsReplace
            (String.mk (P ++ (List.map chunkData
              (Chunk.tok ns cred field :: cs)).flatten))
            (mkToken ns.data cred.data (field.map String.data)).raw
            (jsToString (v (mkToken ns.data cred.data
              (field.map String.data)))) =
          String.mk ((P ++ (jsToString (v (mkToken ns.data cred.data
              (field.map String.data)))).data) ++
            (List.map chunkData cs).flatten) := by
        have e1 : P ++ (List.map chunkData
            (Chunk.tok ns cred field :: cs)).flatten =
            P ++ (mkToken ns.data cred.data (field.map String.data)).raw.data ++
              (List.map chunkData cs).flatten := by
          simp only [List.map_cons, List.flatten_cons]
          rw [show chunkData (Chunk.tok ns cred field) =
            (mkToken ns.data cred.data (field.map String.data)).raw.data
            from rfl]
          simp [List.append_assoc]
        rw [e1, jsReplace_clean P
          (mkToken ns.data cred.data (field.map String.data)).raw
          (jsToString (v (mkToken ns.data cred.data (field.map String.data))))
          ((List.map chunkData cs).flatten) rfl hP hvclean]
      refine Eq.trans ?_ (Eq.trans (ih hcs hcsclean
        (P ++ (jsToString (v (mkToken ns.data cred.data
          (field.map String.data)))).data) (all_append_clean hP hvb)) ?_)
      · exact congrArg
          (fun x => List.foldl (fun result sub =>
            jsReplace result sub.1 (jsToString sub.2)) x
            (List.map (fun t => (t.raw, v t)) (chunkTokens cs))) hstep
      · exact congrArg String.mk (by simp [chunkOut, List.append_assoc])

/-- A bracket-free text contains no token marker. -/
theorem containsSubstr_of_clean {l : List Char}
    (h : l.all (fun c => c != '[') = true) :
    containsSubstr "[VAULT:".data l = false := by
  induction l with
  | nil => rfl
  | cons c rest ih =>
    simp only [List.all_cons, Bool.and_eq_true] at h
    obtain ⟨hc, hrest⟩ := h
    have h1 : ("[VAULT:".data).isPrefixOf (c :: rest) = false := by
      have : ('[' == c) = false := by
        simp only [beq_eq_false_iff_ne, ne_eq]
        intro he
        simp [← he] at hc
      simp [List.isPrefixOf, this]
    simp [containsSubstr, h1, ih hrest]

/-- The substituted output of a well-formed token text with clean
values is bracket-free. -/
theorem chunkOut_flatten_clean (v : VaultToken → JsVal) (cs : List Chunk)
    (hwf : chunksWF cs = true)
    (hclean : ∀ t ∈ chunkTokens cs, cleanValue (jsToString (v t)) = true) :
    ((cs.map (chunkOut v)).flatten).all (fun c => c != '[') = true := by
  induction cs with
  | nil => rfl
  | cons ch cs ih =>
    simp only [chunksWF, List.all_cons, Bool.and_eq_true] at hwf
    obtain ⟨hch, hcs⟩ := hwf
    cases ch with
    | lit s =>
      have htoks : chunkTokens (Chunk.lit s :: cs) = chunkTokens cs := by
        simp [chunkTokens, List.filterMap_cons, chunkToken]
      rw [htoks] at hclean
      simp only [List.map_cons, List.flatten_cons, chunkOut]
      exact all_append_clean (by simpa [chunkWF] using hch) (ih hcs hclean)
    | tok ns cred field =>
      have htoks : chunkTokens (Chunk.tok ns cred field :: cs) =
          mkToken ns.data cred.data (field.map String.data) :: chunkTokens cs := by
        simp [chunkTokens, List.filterMap_cons, chunkToken]
      rw [htoks] at hclean
      have hv := hclean _ (List.mem_cons_self _ _)
      have hvb : (jsToString (v (mkToken ns.data cred.data
          (field.map String.data)))).data.all (fun c => c != '[') = true := by
        simp only [cleanValue, List.all_eq_true, Bool.and_eq_true] at hv ⊢
        exact fun c hc => (hv c hc).1
      simp only [List.map_cons, List.flatten_cons, chunkOut]
      exact all_append_clean hvb
        (ih hcs fun t ht => hclean t (List.mem_cons_of_mem _ ht))

/-- C8 (amended): over every well-formed token text — bracket-free
literal segments interleaved with grammar tokens — whose tokens all
resolve to values free of `[` and `$`, `substituteTokens` succeeds,
replaces every token occurrence with exactly its resolved value, and
the output contains no residual `[VAULT:` marker. -/
theorem C8_substitution_roundtrip (cs : List Chunk) (credentials : CredMap)
    (v : VaultToken → JsVal)
    (hwf : chunksWF cs = true)
    (hres : ∀ t ∈ chunkTokens cs, resolveToken t credentials = .ok (t.raw, v t))
    (hclean : ∀ t ∈ chunkTokens cs, cleanValue (jsToString (v t)) = true) :
    substituteTokens (renderChunks cs) credentials = .ok (renderSubst v cs) ∧
      containsSubstr "[VAULT:".data (renderSubst v cs).data = false := by
  constructor
  · unfold substituteTokens
    have he : extractTokens (renderChunks cs) = chunkTokens cs :=
      findTokens_render cs hwf
    rw [he, mapM_resolve_ok _ _ v hres]
    have h := foldl_replace_chunks v cs hwf hclean [] rfl
    simpa [renderChunks, renderSubst] using h
  · exact containsSubstr_of_clean (chunkOut_flatten_clean v cs hwf hclean)

theorem C8_substitution_roundtrip_witness :
    renderChunks chaseChunks =
      "[VAULT:personal:chase_login.username] / [VAULT:personal:chase_login.password]" ∧
    substituteTokens
      "[VAULT:personal:chase_login.username] / [VAULT:personal:chase_login.password]"
      chaseCreds = .ok "m@x.com / p1" ∧
    containsSubstr "[VAULT:".data "m@x.com / p1".data = false := by
  have hres : ∀ t ∈ chunkTokens chaseChunks,
      resolveToken t chaseCreds = .ok (t.raw, chaseVals t) :=
    List.forall_mem_cons.2 ⟨rfl,
      List.forall_mem_cons.2 ⟨rfl, List.forall_mem_nil _⟩⟩
  have h := C8_substitution_roundtrip chaseChunks chaseCreds chaseVals
    rfl hres (by decide)
  exact ⟨rfl, h.1, h.2⟩

/-- C8 (counterexample): a text that is a single well-formed token
whose credential resolves — to a value that itself contains a
`[VAULT:` marker.  Substitution replaces the occurrence with exactly
that value, so the output does contain a residual `[VAULT:` marker,
refuting the unconditional claim. -/
theorem C8_marker_valued_credential :
    extractTokens "[VAULT:a:b]" = [⟨"[VAULT:a:b]", "a", "b", none⟩] ∧
    substituteTokens "[VAULT:a:b]" [("a:b", .vstr "[VAULT:x:y]")] =
      .ok "[VAULT:x:y]" ∧
    containsSubstr "[VAULT:".data "[VAULT:x:y]".data = true :=
  ⟨by decide, rfl, by decide⟩

theorem C10_missing_value_member_becomes_undefined_witness :
    resolveToken ⟨"[VAULT:a:b]", "a", "b", none⟩
      [("a:b", .vobj [("user", .vstr "u")])] =
      .ok ("[VAULT:a:b]", .vundefined) ∧
    substituteTokens "x [VAULT:a:b]" [("a:b", .vobj [("user", .vstr "u")])] =
      .ok "x undefined" := by
  constructor
  · exact (C10_missing_value_member_becomes_undefined
      ⟨"[VAULT:a:b]", "a", "b", none⟩ [("a:b", .vobj [("user", .vstr "u")])]
      (.vobj [("user", .vstr "u")]) rfl rfl rfl rfl).1
  · rfl

end Vault
